import Mathlib

/-!
Shallow embedding of the `mkdocs_on_steroids` example programs
(`error_handling.cpp`, `hello_world.cpp`, `thread_pool_demo.cpp`).

The repository contains only demo call sites of the external `advlib`
library.  Functions defined in the demo sources (`safe_divide`,
`safe_sqrt`, `find_element`, `complex_calculation`, the `main`
functions) are embedded directly from the source; the advlib
vocabulary they use (`Result`, `Optional`, the thread-pool operations)
is not in the repository and is modelled from the spec, as marked on
each definition.  C++ `double` values are modelled as rationals, with
`std::sqrt` an abstract function parameter.
-/

/-- Modelled from the spec: the advlib `Result<T, E>` success-or-error
sum type with its `map` / `and_then` / `value_or` combinators (the
library itself is not in the repository; only call sites are). -/
inductive Result (α ε : Type) where
  | ok : α → Result α ε
  | err : ε → Result α ε
  deriving DecidableEq, Repr

/-- Modelled from the spec: `Result::map` applies `f` to a success
value and leaves an error untouched. -/
def Result.map {α β ε : Type} (r : Result α ε) (f : α → β) : Result β ε :=
  match r with
  | .ok v => .ok (f v)
  | .err e => .err e

/-- Modelled from the spec: `Result::and_then` chains a fallible
continuation on success and short-circuits on error. -/
def Result.and_then {α β ε : Type} (r : Result α ε) (f : α → Result β ε) : Result β ε :=
  match r with
  | .ok v => f v
  | .err e => .err e

/-- Modelled from the spec: `Result::value_or` returns the success
value, or the given default on error. -/
def Result.value_or {α ε : Type} (r : Result α ε) (d : α) : α :=
  match r with
  | .ok v => v
  | .err _ => d

/-- Modelled from the spec: `Result::is_ok`. -/
def Result.is_ok {α ε : Type} : Result α ε → Bool
  | .ok _ => true
  | .err _ => false

/-- Modelled from the spec: `Result::is_err`. -/
def Result.is_err {α ε : Type} : Result α ε → Bool
  | .ok _ => false
  | .err _ => true

/-- Modelled from the spec: the advlib `Optional<T>` present-or-absent
value type with `value_or` / `has_value` (library not in the
repository; only call sites are). -/
inductive Optional (α : Type) where
  | some : α → Optional α
  | none : Optional α
  deriving DecidableEq, Repr

/-- Modelled from the spec: `Optional::value_or`. -/
def Optional.value_or {α : Type} (o : Optional α) (d : α) : α :=
  match o with
  | .some v => v
  | .none => d

/-- Modelled from the spec: `Optional::has_value`. -/
def Optional.has_value {α : Type} : Optional α → Bool
  | .some _ => true
  | .none => false

/-- `safe_divide` from `error_handling.cpp`: returns
`Err("Division by zero")` when `b == 0.0`, else `Ok(a / b)`. -/
def safe_divide (a b : ℚ) : Result ℚ String :=
  if b = 0 then .err "Division by zero" else .ok (a / b)

/-- `safe_sqrt` from `error_handling.cpp`: returns an error for
negative input, else `Ok(sqrt x)`.  `std::sqrt` is an abstract
parameter `sqrtFn` since rationals are not closed under square
roots. -/
def safe_sqrt (sqrtFn : ℚ → ℚ) (x : ℚ) : Result ℚ String :=
  if x < 0 then .err "Cannot take square root of negative number" else .ok (sqrtFn x)

/-- The index-scanning loop of `find_element` from
`error_handling.cpp`: scans positions in increasing order starting at
counter `i`, returning the counter at the first match. -/
def find_element_loop (target : Int) : List Int → Nat → Optional Int
  | [], _ => .none
  | x :: xs, i => if x = target then .some (Int.ofNat i) else find_element_loop target xs (i + 1)

/-- `find_element` from `error_handling.cpp`: first index of `target`
in `vec` (as an `Optional<int>`), or none. -/
def find_element (vec : List Int) (target : Int) : Optional Int :=
  find_element_loop target vec 0

/-- `complex_calculation` from `error_handling.cpp`:
`safe_divide(a, b).and_then(λ r, safe_sqrt(r + c)).map(λ r, r * 2)`. -/
def complex_calculation (sqrtFn : ℚ → ℚ) (a b c : ℚ) : Result ℚ String :=
  ((safe_divide a b).and_then (fun result => safe_sqrt sqrtFn (result + c))).map
    (fun result => result * 2)

/-- Claim C2: for every `a` and continuation `f`, `safe_divide a 0` is
the error `"Division by zero"`, and `and_then` short-circuits: the
chained result is still that same error, for every `f` alike — so the
value of `f` is never consulted. -/
theorem safe_divide_zero_and_then_short_circuits (a : ℚ) (f : ℚ → Result ℚ String) :
    safe_divide a 0 = .err "Division by zero" ∧
    (safe_divide a 0).and_then f = .err "Division by zero" := by
  constructor <;> simp [safe_divide, Result.and_then]

/-- Witness for C2 at `a = 10` and a concrete continuation. -/
theorem safe_divide_zero_and_then_short_circuits_witness :
    safe_divide 10 0 = .err "Division by zero" ∧
    (safe_divide 10 0).and_then (fun x => Result.ok (x + 1)) = .err "Division by zero" :=
  safe_divide_zero_and_then_short_circuits 10 (fun x => Result.ok (x + 1))

/-- Claim C3: for all `f` and `g`, `safe_divide 10 2 |>.map f |>.map g`
is `Ok (g (f 5))`: `map` over an `Ok` result composes the functions in
application order. -/
theorem safe_divide_map_map_composes (f g : ℚ → ℚ) :
    ((safe_divide 10 2).map f).map g = .ok (g (f 5)) := by
  have h : safe_divide 10 2 = .ok 5 := by
    unfold safe_divide
    norm_num
  rw [h]
  rfl

/-- If the target is absent from the scanned suffix, the loop returns
none, whatever the counter. -/
theorem find_element_loop_not_mem (target : Int) (l : List Int) (n : Nat)
    (h : target ∉ l) : find_element_loop target l n = .none := by
  induction l generalizing n with
  | nil => rfl
  | cons x xs ih =>
    have hx : x ≠ target := fun hxt => h (hxt ▸ List.mem_cons_self x xs)
    have hxs : target ∉ xs := fun hm => h (List.mem_cons_of_mem x hm)
    simp only [find_element_loop, if_neg hx]
    exact ih (n + 1) hxs

/-- If the target is present in the scanned suffix, the loop returns a
counter value that re-indexes to the target. -/
theorem find_element_loop_mem (target : Int) (l : List Int) (n : Nat)
    (h : target ∈ l) :
    ∃ i : Nat, find_element_loop target l n = .some (Int.ofNat (n + i)) ∧
      l.get? i = some target := by
  induction l generalizing n with
  | nil => exact absurd h (List.not_mem_nil target)
  | cons x xs ih =>
    by_cases hx : x = target
    · refine ⟨0, ?_, ?_⟩
      · simp [find_element_loop, if_pos hx]
      · simp [hx]
    · have hxs : target ∈ xs := by
        rcases List.mem_cons.mp h with h1 | h2
        · exact absurd h1.symm hx
        · exact h2
      obtain ⟨i, hloop, hget⟩ := ih (n + 1) hxs
      refine ⟨i + 1, ?_, ?_⟩
      · have heq : n + (i + 1) = n + 1 + i := by omega
        simp only [find_element_loop, if_neg hx, heq]
        exact hloop
      · simpa using hget

/-- Claim C4: if `target` occurs in `vec`, `find_element` returns an
index that re-indexes to the original value; if it does not occur, the
result is none and `value_or default` yields the default. -/
theorem find_element_round_trip (vec : List Int) (target d : Int) :
    (target ∈ vec →
      ∃ i : Nat, find_element vec target = .some (Int.ofNat i) ∧ vec.get? i = some target) ∧
    (target ∉ vec →
      find_element vec target = .none ∧ (find_element vec target).value_or d = d) := by
  constructor
  · intro hmem
    obtain ⟨i, hloop, hget⟩ := find_element_loop_mem target vec 0 hmem
    exact ⟨i, by simpa [find_element] using hloop, hget⟩
  · intro hnm
    have h0 : find_element vec target = .none := find_element_loop_not_mem target vec 0 hnm
    exact ⟨h0, by rw [h0]; rfl⟩

/-- Witness for C4 on the demo vector `{10, 20, 30, 40, 50}` with the
present target 30 and the absent target 99 (default `-1` as in the
demo). -/
theorem find_element_round_trip_witness :
    (∃ i : Nat, find_element [10, 20, 30, 40, 50] 30 = .some (Int.ofNat i) ∧
      List.get? ([10, 20, 30, 40, 50] : List Int) i = some 30) ∧
    (find_element [10, 20, 30, 40, 50] 99 = .none ∧
      (find_element [10, 20, 30, 40, 50] 99).value_or (-1) = -1) :=
  ⟨(find_element_round_trip [10, 20, 30, 40, 50] 30 (-1)).1 (by decide),
   (find_element_round_trip [10, 20, 30, 40, 50] 99 (-1)).2 (by decide)⟩

/-- If the loop answers, the answer is the counter of the first match
in the scanned suffix: the matched cell holds the target and every
earlier cell differs from it. -/
theorem find_element_loop_first (target : Int) (l : List Int) (n : Nat) (k : Int)
    (h : find_element_loop target l n = .some k) :
    ∃ i : Nat, k = Int.ofNat (n + i) ∧ l.get? i = some target ∧
      ∀ j : Nat, j < i → l.get? j ≠ some target := by
  induction l generalizing n with
  | nil => exact absurd h (by simp [find_element_loop])
  | cons x xs ih =>
    by_cases hx : x = target
    · simp only [find_element_loop, if_pos hx, Optional.some.injEq] at h
      refine ⟨0, ?_, by simp [hx], by omega⟩
      rw [← h, Nat.add_zero]
    · simp only [find_element_loop, if_neg hx] at h
      obtain ⟨i, hk, hget, hfirst⟩ := ih (n + 1) h
      refine ⟨i + 1, by rw [hk, show n + 1 + i = n + (i + 1) from by omega], by simpa using hget, ?_⟩
      intro j hj
      match j with
      | 0 => simpa using hx
      | j + 1 => exact fun hc => hfirst j (by omega) (by simpa using hc)

/-- Claim C9: `find_element` returns the first (lowest-index)
occurrence: whenever it answers with index `i`, cell `i` holds the
target and no earlier cell does — so with repeated targets the lowest
index wins. -/
theorem find_element_first_occurrence (vec : List Int) (target k : Int)
    (h : find_element vec target = .some k) :
    ∃ i : Nat, k = Int.ofNat i ∧ vec.get? i = some target ∧
      ∀ j : Nat, j < i → vec.get? j ≠ some target := by
  obtain ⟨i, hk, hget, hfirst⟩ := find_element_loop_first target vec 0 k h
  exact ⟨i, by simpa using hk, hget, hfirst⟩

/-- Witness for C9 on a vector in which the target 5 occurs twice (at
indices 0 and 2). -/
theorem find_element_first_occurrence_witness :
    ∃ i : Nat, (0 : Int) = Int.ofNat i ∧ List.get? ([5, 7, 5] : List Int) i = some 5 ∧
      ∀ j : Nat, j < i → List.get? ([5, 7, 5] : List Int) j ≠ some 5 :=
  find_element_first_occurrence [5, 7, 5] 5 0 (by decide)

/-- Claim C10: `complex_calculation a b c` is an error exactly when
`b = 0` (with message `"Division by zero"`) or `a / b + c < 0` (with
the square-root message); otherwise it is `Ok (2 * sqrt (a / b + c))`.
Holds for every model `sqrtFn` of `std::sqrt`. -/
theorem complex_calculation_cases (sqrtFn : ℚ → ℚ) (a b c : ℚ) :
    (b = 0 → complex_calculation sqrtFn a b c = .err "Division by zero") ∧
    (b ≠ 0 → a / b + c < 0 →
      complex_calculation sqrtFn a b c = .err "Cannot take square root of negative number") ∧
    (b ≠ 0 → 0 ≤ a / b + c →
      complex_calculation sqrtFn a b c = .ok (2 * sqrtFn (a / b + c))) := by
  refine ⟨?_, ?_, ?_⟩
  · intro hb
    simp [complex_calculation, safe_divide, if_pos hb, Result.and_then, Result.map]
  · intro hb hneg
    simp [complex_calculation, safe_divide, if_neg hb, Result.and_then, safe_sqrt,
      if_pos hneg, Result.map]
  · intro hb hpos
    simp only [complex_calculation, safe_divide, if_neg hb, Result.and_then, safe_sqrt,
      if_neg (not_lt.mpr hpos), Result.map]
    rw [mul_comm]

/-- Witness for C10: all three branches at concrete inputs, with
`sqrtFn` the identity. -/
theorem complex_calculation_cases_witness :
    complex_calculation (fun x => x) 16 0 3 = .err "Division by zero" ∧
    complex_calculation (fun x => x) (-16) 4 0 = .err "Cannot take square root of negative number" ∧
    complex_calculation (fun x => x) 16 4 0 = .ok (2 * ((16 : ℚ) / 4 + 0)) :=
  ⟨(complex_calculation_cases (fun x => x) 16 0 3).1 rfl,
   (complex_calculation_cases (fun x => x) (-16) 4 0).2.1 (by norm_num) (by norm_num),
   (complex_calculation_cases (fun x => x) 16 4 0).2.2 (by norm_num) (by norm_num)⟩

/-- Modelled from the spec: the tagged outcome a worker stores into a
future slot — either the task's value or a captured exception. -/
inductive Outcome (α : Type) where
  | value : α → Outcome α
  | error : String → Outcome α
  deriving DecidableEq, Repr

/-- Modelled from the spec: the worker-loop boundary around one task
body.  A body that returns normally yields a value outcome; a body
that throws has its exception captured into an error outcome, never
escaping the loop. -/
def run_task {α : Type} (body : Except String α) : Outcome α :=
  match body with
  | .ok v => .value v
  | .error e => .error e

/-- Modelled from the spec: a single worker processing its queue of
tasks in order; every task gets exactly one stored outcome and the
worker proceeds past failures to the next task. -/
def worker_run {α : Type} (tasks : List (Except String α)) : List (Outcome α) :=
  tasks.map run_task

/-- Modelled from the spec: `Future::get` — delivers the stored value,
or re-raises the captured exception in the calling thread. -/
def Future.get {α : Type} : Outcome α → Except String α
  | .value v => .ok v
  | .error e => .error e

/-- Claim C1: a task body that throws `e` has `e` captured, and `get`
on its future re-raises that same `e`; the worker is not terminated
(every submitted task still receives an outcome), and any task whose
body returns normally — later ones included — completes with its
value. -/
theorem worker_exception_propagation {α : Type} (tasks : List (Except String α))
    (i : Nat) (e : String) (h : tasks.get? i = some (.error e)) :
    ((worker_run tasks).get? i).map Future.get = some (Except.error e) ∧
    (worker_run tasks).length = tasks.length ∧
    ∀ j v, tasks.get? j = some (.ok v) →
      ((worker_run tasks).get? j).map Future.get = some (Except.ok v) := by
  refine ⟨?_, ?_, ?_⟩
  · rw [worker_run, List.get?_map, h]
    rfl
  · exact List.length_map tasks run_task
  · intro j v hj
    rw [worker_run, List.get?_map, hj]
    rfl

/-- Witness for C1: a queue holding a throwing task followed by a
normal one, as in demo 5 of `thread_pool_demo.cpp`; the error is
re-raised for the first and the second still completes. -/
theorem worker_exception_propagation_witness :
    ((worker_run [Except.error "Task failed!", Except.ok (7 : Int)]).get? 0).map Future.get =
      some (Except.error "Task failed!") ∧
    ((worker_run [Except.error "Task failed!", Except.ok (7 : Int)]).get? 1).map Future.get =
      some (Except.ok (7 : Int)) :=
  ⟨(worker_exception_propagation [Except.error "Task failed!", Except.ok (7 : Int)]
      0 "Task failed!" rfl).1,
   (worker_exception_propagation [Except.error "Task failed!", Except.ok (7 : Int)]
      0 "Task failed!" rfl).2.2 1 7 rfl⟩

/-- Modelled from the spec: a cancelable task body polls the shared
cancellation flag and chooses its own return value; the worker stores
whatever the body returns as a normal (success) outcome.  The flag
argument is the flag value the body observes at its poll. -/
def run_cancelable {α : Type} (body : Bool → α) (cancel_flag : Bool) : Outcome α :=
  Outcome.value (body cancel_flag)

/-- Claim C7: a cancelable task whose body answers cancellation with a
caller-chosen sentinel delivers, once `cancel()` has set the flag,
exactly that sentinel through `get`'s normal success path — never
through the error path (so `get` does not raise and does not hang). -/
theorem cancel_returns_sentinel {α : Type} (body : Bool → α) (sentinel : α)
    (h : body true = sentinel) :
    Future.get (run_cancelable body true) = Except.ok sentinel ∧
    ∀ e, run_cancelable body true ≠ Outcome.error e := by
  constructor
  · rw [run_cancelable, h]
    rfl
  · intro e hcontra
    simp [run_cancelable] at hcontra

/-- Witness for C7 with the demo body of `thread_pool_demo.cpp`
(demo 4): return `-1` when cancelled, `1000` otherwise. -/
theorem cancel_returns_sentinel_witness :
    Future.get (run_cancelable (fun c => if c then (-1 : Int) else 1000) true) =
      Except.ok (-1) :=
  (cancel_returns_sentinel (fun c => if c then (-1 : Int) else 1000) (-1) rfl).1

/-- Sequencing of the library/demo calls a `main` performs: stops at
the first call that throws, propagating its exception. -/
def run_seq : List (Except String Unit) → Except String Unit
  | [] => Except.ok ()
  | d :: ds =>
    match d with
    | .ok _ => run_seq ds
    | .error e => .error e

/-- `main` of `thread_pool_demo.cpp`: runs the six demos inside a
try/catch; returns 1 when a `std::exception` escapes a demo, 0
otherwise.  The `demos` argument models the outcome of each demo
call. -/
def thread_pool_demo_main (demos : List (Except String Unit)) : Nat :=
  match run_seq demos with
  | .ok _ => 0
  | .error _ => 1

/-- `main` of `hello_world.cpp`: performs its library calls (modelled
by `calls`) with no try/catch and returns 0; its only return statement
is `return 0`, so an exception from a call propagates out of `main`
and no exit code is returned by `main` at all. -/
def hello_world_main (calls : List (Except String Unit)) : Except String Nat :=
  match run_seq calls with
  | .ok _ => .ok 0
  | .error e => .error e

/-- `main` of `error_handling.cpp`: same shape as `hello_world_main` —
no try/catch, single `return 0`. -/
def error_handling_main (calls : List (Except String Unit)) : Except String Nat :=
  match run_seq calls with
  | .ok _ => .ok 0
  | .error e => .error e

/-- Counterexample to C8 as stated: when an uncaught error escapes to
the top level of `hello_world.cpp`'s `main`, the error propagates out
of `main` (the process is terminated by the runtime) — `main` does not
return exit code 1. -/
theorem hello_world_uncaught_error_no_exit_code_one :
    hello_world_main [Except.error "boom"] = Except.error "boom" ∧
    hello_world_main [Except.error "boom"] ≠ Except.ok 1 := by
  constructor
  · rfl
  · intro h
    simp [hello_world_main, run_seq] at h

/-- Claim C8 (amended): `thread_pool_demo.cpp`'s `main` returns 0 when
the demos complete without an uncaught error and 1 when a
`std::exception` escapes a demo into its top-level catch;
`hello_world.cpp` and `error_handling.cpp` return 0 on completion but
install no top-level handler, so an escaping error propagates out of
`main` unchanged instead of producing an exit code. -/
theorem demo_exit_codes (demos calls1 calls2 : List (Except String Unit)) :
    (run_seq demos = Except.ok () → thread_pool_demo_main demos = 0) ∧
    (∀ e, run_seq demos = Except.error e → thread_pool_demo_main demos = 1) ∧
    (run_seq calls1 = Except.ok () → hello_world_main calls1 = Except.ok 0) ∧
    (∀ e, run_seq calls1 = Except.error e → hello_world_main calls1 = Except.error e) ∧
    (run_seq calls2 = Except.ok () → error_handling_main calls2 = Except.ok 0) ∧
    (∀ e, run_seq calls2 = Except.error e → error_handling_main calls2 = Except.error e) := by
  refine ⟨?_, ?_, ?_, ?_, ?_, ?_⟩
  · intro h
    rw [thread_pool_demo_main, h]
  · intro e h
    rw [thread_pool_demo_main, h]
  · intro h
    rw [hello_world_main, h]
  · intro e h
    rw [hello_world_main, h]
  · intro h
    rw [error_handling_main, h]
  · intro e h
    rw [error_handling_main, h]

/-- Witness for the amended C8 at concrete call outcomes. -/
theorem demo_exit_codes_witness :
    thread_pool_demo_main [Except.ok ()] = 0 ∧
    thread_pool_demo_main [Except.error "Task failed!"] = 1 ∧
    hello_world_main [Except.ok ()] = Except.ok 0 ∧
    error_handling_main [Except.ok ()] = Except.ok 0 :=
  ⟨(demo_exit_codes [Except.ok ()] [] []).1 rfl,
   (demo_exit_codes [Except.error "Task failed!"] [] []).2.1 "Task failed!" rfl,
   (demo_exit_codes [] [Except.ok ()] []).2.2.1 rfl,
   (demo_exit_codes [] [] [Except.ok ()]).2.2.2.2.1 rfl⟩

/-- Modelled from the spec: the completion phase of `parallel_map` —
one task per element; `order` lists the indices in the order the
workers happen to finish them; each completion writes `fn(input[i])`
into the result slot for index `i`. -/
def write_results {α β : Type} (fn : α → β) (inputs : List α) :
    List Nat → (Nat → Option β) → Nat → Option β
  | [], slots => slots
  | i :: rest, slots =>
    write_results fn inputs rest
      (fun j => if j = i then (inputs.get? i).map fn else slots j)

/-- Modelled from the spec: `parallel_map` submits one task per
element, lets them complete in the arbitrary order `order`, and then
gathers the result slots in input order.  An unfilled slot (a task not
yet complete) reads as `Option.none`. -/
def parallel_map {α β : Type} (fn : α → β) (inputs : List α) (order : List Nat) :
    List (Option β) :=
  (List.range inputs.length).map (write_results fn inputs order (fun _ => Option.none))

/-- A slot never completed keeps its previous content. -/
theorem write_results_not_mem {α β : Type} (fn : α → β) (inputs : List α)
    (order : List Nat) (slots : Nat → Option β) (i : Nat) (h : i ∉ order) :
    write_results fn inputs order slots i = slots i := by
  induction order generalizing slots with
  | nil => rfl
  | cons a rest ih =>
    have hia : i ≠ a := fun hc => h (hc ▸ List.mem_cons_self a rest)
    have hir : i ∉ rest := fun hm => h (List.mem_cons_of_mem a hm)
    rw [write_results, ih _ hir]
    simp [if_neg hia]

/-- A slot whose task did complete holds `fn` of its input, no matter
where in the completion order it ran. -/
theorem write_results_mem {α β : Type} (fn : α → β) (inputs : List α)
    (order : List Nat) (slots : Nat → Option β) (i : Nat) (h : i ∈ order) :
    write_results fn inputs order slots i = (inputs.get? i).map fn := by
  induction order generalizing slots with
  | nil => exact absurd h (List.not_mem_nil i)
  | cons a rest ih =>
    by_cases hir : i ∈ rest
    · rw [write_results, ih _ hir]
    · have hia : i = a := by
        rcases List.mem_cons.mp h with h1 | h2
        · exact h1
        · exact absurd h2 hir
      rw [write_results, write_results_not_mem fn inputs rest _ i hir]
      simp [if_pos hia, hia]

/-- Claim C5: once every index has completed (in whatever order),
`parallel_map` returns a sequence of the same size as the input in
which slot `i` holds exactly `fn input[i]` — input order is preserved
regardless of completion order. -/
theorem parallel_map_preserves_order {α β : Type} (fn : α → β) (inputs : List α)
    (order : List Nat) (h : ∀ i, i < inputs.length → i ∈ order) :
    (parallel_map fn inputs order).length = inputs.length ∧
    ∀ i x, inputs.get? i = some x →
      (parallel_map fn inputs order).get? i = some (some (fn x)) := by
  constructor
  · rw [parallel_map, List.length_map, List.length_range]
  · intro i x hx
    have hlt : i < inputs.length := by
      by_contra hge
      rw [List.get?_eq_none.mpr (by omega)] at hx
      exact Option.noConfusion hx
    rw [parallel_map, List.get?_map, List.get?_range hlt]
    simp only [Option.map_some']
    rw [write_results_mem fn inputs order _ i (h i hlt), hx]
    rfl

/-- Witness for C5: the squaring map of demo 3 over `[1, 2, 3]`, run
with completion order `[2, 0, 1]` — the gather still matches input
order. -/
theorem parallel_map_preserves_order_witness :
    (parallel_map (fun x : Int => x * x) [1, 2, 3] [2, 0, 1]).length = 3 ∧
    (parallel_map (fun x : Int => x * x) [1, 2, 3] [2, 0, 1]).get? 1 = some (some 4) :=
  ⟨(parallel_map_preserves_order (fun x : Int => x * x) [1, 2, 3] [2, 0, 1]
      (by decide)).1,
   (parallel_map_preserves_order (fun x : Int => x * x) [1, 2, 3] [2, 0, 1]
      (by decide)).2 1 2 rfl⟩

/-- Modelled from the spec: the four priority levels, ordered
Critical > High > Medium > Low. -/
inductive Priority where
  | Critical
  | High
  | Medium
  | Low
  deriving DecidableEq, Repr

/-- Modelled from the spec: the numeric rank of a level; a smaller
rank pops first. -/
def Priority.rank : Priority → Nat
  | .Critical => 0
  | .High => 1
  | .Medium => 2
  | .Low => 3

/-- Modelled from the spec: the strict order on queue keys
(priority-rank first, then the monotonic submission sequence number
for FIFO tie-break).  A queued task is the pair (sequence number,
priority). -/
def keyLt (t u : Nat × Priority) : Prop :=
  t.2.rank < u.2.rank ∨ (t.2.rank = u.2.rank ∧ t.1 < u.1)

instance (t u : Nat × Priority) : Decidable (keyLt t u) := by
  unfold keyLt
  exact inferInstance

/-- Modelled from the spec: insertion into the ordered queue — the new
task goes in front of the first queued task it beats, so equal-rank
tasks stay in submission order. -/
def pq_insert (t : Nat × Priority) : List (Nat × Priority) → List (Nat × Priority)
  | [] => [t]
  | u :: us => if keyLt t u then t :: u :: us else u :: pq_insert t us

/-- Modelled from the spec: `submit_priority` for each listed level in
submission order, stamping each task with the next sequence number
`n`. -/
def enqueue_from (n : Nat) (ps : List Priority)
    (q : List (Nat × Priority)) : List (Nat × Priority) :=
  match ps with
  | [] => q
  | p :: rest => enqueue_from (n + 1) rest (pq_insert (n, p) q)

/-- Modelled from the spec: with exactly one worker the observed start
order is exactly the queue's pop order after all submissions, i.e. the
ordered queue built from the submissions. -/
def run_order (ps : List Priority) : List (Nat × Priority) :=
  enqueue_from 0 ps []

/-- The key order is transitive. -/
theorem keyLt_trans {t u v : Nat × Priority} (h1 : keyLt t u) (h2 : keyLt u v) :
    keyLt t v := by
  rcases h1 with h1 | ⟨h1e, h1s⟩ <;> rcases h2 with h2 | ⟨h2e, h2s⟩
  · exact Or.inl (Nat.lt_trans h1 h2)
  · exact Or.inl (h2e ▸ h1)
  · exact Or.inl (h1e ▸ h2)
  · exact Or.inr ⟨h1e.trans h2e, Nat.lt_trans h1s h2s⟩

/-- The key order is total on tasks with distinct sequence numbers. -/
theorem keyLt_of_not_keyLt {t u : Nat × Priority} (h : ¬ keyLt t u)
    (hne : t.1 ≠ u.1) : keyLt u t := by
  unfold keyLt at h ⊢
  omega

/-- Membership after an insertion. -/
theorem mem_pq_insert {t v : Nat × Priority} {l : List (Nat × Priority)} :
    v ∈ pq_insert t l ↔ v = t ∨ v ∈ l := by
  induction l with
  | nil => simp [pq_insert]
  | cons u us ih =>
    by_cases h : keyLt t u
    · rw [pq_insert, if_pos h]
      simp only [List.mem_cons]
    · rw [pq_insert, if_neg h]
      simp only [List.mem_cons, ih]
      tauto

/-- Inserting a task with a fresh sequence number keeps the queue
strictly ordered by key. -/
theorem pairwise_pq_insert {t : Nat × Priority} {l : List (Nat × Priority)}
    (hp : List.Pairwise keyLt l) (hfresh : ∀ u ∈ l, u.1 ≠ t.1) :
    List.Pairwise keyLt (pq_insert t l) := by
  induction l with
  | nil => simp [pq_insert]
  | cons u us ih =>
    rcases List.pairwise_cons.mp hp with ⟨hu, hus⟩
    by_cases h : keyLt t u
    · rw [pq_insert, if_pos h]
      refine List.pairwise_cons.mpr ⟨?_, hp⟩
      intro v hv
      rcases List.mem_cons.mp hv with rfl | hvm
      · exact h
      · exact keyLt_trans h (hu v hvm)
    · rw [pq_insert, if_neg h]
      refine List.pairwise_cons.mpr ⟨?_, ?_⟩
      · intro v hv
        rcases mem_pq_insert.mp hv with rfl | hvm
        · exact keyLt_of_not_keyLt h
            (fun hc => hfresh u (List.mem_cons_self u us) hc.symm)
        · exact hu v hvm
      · exact ih hus (fun v hv => hfresh v (List.mem_cons_of_mem u hv))

/-- Sequence numbers in an insertion result are those inserted. -/
theorem pq_insert_seq_lt {t : Nat × Priority} {l : List (Nat × Priority)} {n : Nat}
    (hl : ∀ u ∈ l, u.1 < n) (ht : t.1 < n) :
    ∀ u ∈ pq_insert t l, u.1 < n := by
  intro u hu
  rcases mem_pq_insert.mp hu with rfl | hum
  · exact ht
  · exact hl u hum

/-- Enqueueing from a fresh sequence counter preserves strict key
ordering of the queue. -/
theorem enqueue_from_pairwise (ps : List Priority) :
    ∀ (n : Nat) (q : List (Nat × Priority)), List.Pairwise keyLt q →
      (∀ u ∈ q, u.1 < n) → List.Pairwise keyLt (enqueue_from n ps q) := by
  induction ps with
  | nil => intro n q hq _; exact hq
  | cons p rest ih =>
    intro n q hq hlt
    rw [enqueue_from]
    refine ih (n + 1) (pq_insert (n, p) q) ?_ ?_
    · exact pairwise_pq_insert hq (fun u hu => Nat.ne_of_lt (hlt u hu))
    · exact pq_insert_seq_lt (fun u hu => Nat.lt_succ_of_lt (hlt u hu)) (Nat.lt_succ_self n)

/-- The single-worker start order is strictly ordered by
(priority-rank, sequence number). -/
theorem run_order_pairwise (ps : List Priority) :
    List.Pairwise keyLt (run_order ps) :=
  enqueue_from_pairwise ps 0 [] List.Pairwise.nil (by simp)

/-- Claim C6: with one worker, submitting at Low, High, Medium,
Critical (in that order) starts tasks in the order Critical, High,
Medium, Low; and in every submission list, two tasks of equal priority
start in FIFO submission order (the earlier sequence number starts
first). -/
theorem priority_scheduling_order :
    (run_order [Priority.Low, Priority.High, Priority.Medium, Priority.Critical]).map
        Prod.snd =
      [Priority.Critical, Priority.High, Priority.Medium, Priority.Low] ∧
    ∀ (prios : List Priority) (a b i j : Nat) (p : Priority),
      (run_order prios).get? a = some (i, p) →
      (run_order prios).get? b = some (j, p) → i < j → a < b := by
  constructor
  · decide
  · intro prios a b i j p ha hb hij
    obtain ⟨hal, hga⟩ := List.get?_eq_some.mp ha
    obtain ⟨hbl, hgb⟩ := List.get?_eq_some.mp hb
    have hpw := List.pairwise_iff_get.mp (run_order_pairwise prios)
    rcases Nat.lt_trichotomy a b with hab | hab | hab
    · exact hab
    · exfalso
      subst hab
      have hsame : ((i, p) : Nat × Priority) = (j, p) := hga.symm.trans hgb
      have : i = j := congrArg Prod.fst hsame
      omega
    · exfalso
      have hk := hpw ⟨b, hbl⟩ ⟨a, hal⟩ hab
      rw [hga, hgb] at hk
      rcases hk with hk | ⟨_, hk⟩
      · exact Nat.lt_irrefl _ hk
      · omega

/-- Witness for C6: submissions Low, High, Low — the two Low tasks
(sequence numbers 0 and 2, queue positions 1 and 2) start in FIFO
order. -/
theorem priority_scheduling_order_witness :
    (run_order [Priority.Low, Priority.High, Priority.Low]).get? 1 =
      some (0, Priority.Low) ∧ (1 : Nat) < 2 :=
  ⟨by decide,
   priority_scheduling_order.2 [Priority.Low, Priority.High, Priority.Low]
     1 2 0 2 Priority.Low (by decide) (by decide) (by decide)⟩
